import Mathlib

/-!
Verification of the `hwlocality` bitmap engine against its specification.

The repository wraps the hwloc C library's `hwloc_bitmap_t`: a set of
non-negative integer indices that may be cofinite (all bits set beyond some
point). The Rust side (`src/src/bitmaps/mod.rs`) contributes the range
translation (`Bitmap::hwloc_range`), the `set_range`/`unset_range` dispatch,
the iterator protocol (`BitmapIterator`), and the `FromIterator`/`Extend`
impls; the bit-level semantics of the C calls (`hwloc_bitmap_set`,
`hwloc_bitmap_weight`, ...) and the `BitmapIndex` type (module
`bitmaps/indices`, not present in the sources) are modelled from the spec.

The bitmap is modelled, following the spec's representation note, as an
explicit finite list of bits plus a single flag meaning "every index at or
beyond the end of the list is a member".
-/

/-- Modelled from the spec: the maximum of the index domain (the spec's
`MAX`, at least 32767, "usually 2^31-1"; `BitmapIndex` wraps a C `int`). -/
def BMAX : Nat := 2147483647

/-- Modelled from the spec: a bitmap is a finite explicit bit list `pfx` plus
an `inf` flag meaning every index at or beyond `pfx.length` is set. -/
structure Bitmap where
  pfx : List Bool
  inf : Bool
deriving DecidableEq

namespace Bitmap

/-- Modelled from the spec: membership test (`hwloc_bitmap_isset`), the
total characteristic function of the set. -/
def mem (b : Bitmap) (i : Nat) : Bool :=
  b.pfx.getD i b.inf

/-- Modelled from the spec: `Bitmap::is_set` delegates to
`hwloc_bitmap_isset`, i.e. membership. -/
def is_set (b : Bitmap) (i : Nat) : Bool :=
  b.mem i

/-- Modelled from the spec: `Bitmap::new` (`hwloc_bitmap_alloc`), the empty
set. -/
def new : Bitmap :=
  ⟨[], false⟩

/-- Modelled from the spec: `Bitmap::full` (`hwloc_bitmap_alloc_full`), the
set of all indices. -/
def full : Bitmap :=
  ⟨[], true⟩

/-- Modelled from the spec: `Bitmap::clear` (`hwloc_bitmap_zero`) resets
every stored bit and drops the infinite tail. -/
def clear (b : Bitmap) : Bitmap :=
  ⟨List.replicate b.pfx.length false, false⟩

/-- Modelled from the spec: `Bitmap::fill` (`hwloc_bitmap_fill`) sets every
stored bit and raises the infinite tail. -/
def fill (b : Bitmap) : Bitmap :=
  ⟨List.replicate b.pfx.length true, true⟩

/-- Grow the stored bit list to length at least `n`, filling new slots with
the tail value (pure representation bookkeeping, membership unchanged). -/
def pad (b : Bitmap) (n : Nat) : List Bool :=
  b.pfx ++ List.replicate (n - b.pfx.length) b.inf

/-- Modelled from the spec: `Bitmap::set` (`hwloc_bitmap_set`) makes index
`i` a member and changes nothing else. -/
def set (b : Bitmap) (i : Nat) : Bitmap :=
  ⟨(b.pad (i + 1)).set i true, b.inf⟩

/-- Modelled from the spec: `Bitmap::is_empty` (`hwloc_bitmap_iszero`). -/
def is_empty (b : Bitmap) : Bool :=
  (b.pfx.all fun x => !x) && !b.inf

/-- Modelled from the spec: `Bitmap::is_full` (`hwloc_bitmap_isfull`). -/
def is_full (b : Bitmap) : Bool :=
  (b.pfx.all fun x => x) && b.inf

/-- Modelled from the spec: `Bitmap::weight` (`hwloc_bitmap_weight`), the
number of members, `none` standing for "unbounded" (infinite tail). -/
def weight (b : Bitmap) : Option Nat :=
  if b.inf then none else some (b.pfx.count true)

/-- Pointwise combination of two bitmaps, covering the finite parts of both
operands and combining the tail flags (how the hwloc binary operations act
on the finite-list-plus-flag representation). -/
def lift2 (f : Bool → Bool → Bool) (a b : Bitmap) : Bitmap :=
  ⟨(List.range (max a.pfx.length b.pfx.length)).map fun i => f (a.mem i) (b.mem i),
   f a.inf b.inf⟩

/-- Modelled from the spec: intersection (`hwloc_bitmap_and`, operator `&`). -/
def and (a b : Bitmap) : Bitmap :=
  lift2 (fun x y => x && y) a b

/-- Modelled from the spec: union (`hwloc_bitmap_or`, operator `|`). -/
def or (a b : Bitmap) : Bitmap :=
  lift2 (fun x y => x || y) a b

/-- Modelled from the spec: symmetric difference (`hwloc_bitmap_xor`,
operator `^`). -/
def xor (a b : Bitmap) : Bitmap :=
  lift2 (fun x y => x != y) a b

/-- Modelled from the spec: asymmetric difference (`hwloc_bitmap_andnot`,
operator `-`, equivalent to `self & !other`). -/
def sub (a b : Bitmap) : Bitmap :=
  lift2 (fun x y => x && !y) a b

/-- Modelled from the spec: set equality (`hwloc_bitmap_isequal`, the
`PartialEq` impl): same members everywhere. -/
def equal (a b : Bitmap) : Bool :=
  (a.inf == b.inf) &&
    (List.range (max a.pfx.length b.pfx.length)).all fun i => a.mem i == b.mem i

-- === Probing for the next set / unset index ===

/-- Fueled search for the first set index at or after `k`; the fuel only
needs to cover the stored bit list, past it the answer is decided by the
tail flag. -/
def next_ge_aux (b : Bitmap) : Nat → Nat → Option Nat
  | 0, k => if b.inf then some k else none
  | fuel + 1, k =>
    if k < b.pfx.length then
      if b.mem k then some k else next_ge_aux b fuel (k + 1)
    else if b.inf then some k else none

/-- Modelled from the spec: first set index at or after `k` (the engine
probe behind `hwloc_bitmap_next` and `hwloc_bitmap_first`). -/
def next_ge (b : Bitmap) (k : Nat) : Option Nat :=
  next_ge_aux b b.pfx.length k

/-- Fueled search for the first unset index at or after `k`. -/
def next_unset_ge_aux (b : Bitmap) : Nat → Nat → Option Nat
  | 0, k => if b.inf then none else some k
  | fuel + 1, k =>
    if k < b.pfx.length then
      if b.mem k then next_unset_ge_aux b fuel (k + 1) else some k
    else if b.inf then none else some k

/-- Modelled from the spec: first unset index at or after `k` (the engine
probe behind `hwloc_bitmap_next_unset`). -/
def next_unset_ge (b : Bitmap) (k : Nat) : Option Nat :=
  next_unset_ge_aux b b.pfx.length k


/-- Modelled from the spec: `Bitmap::first_set` (`hwloc_bitmap_first`). -/
def first_set (b : Bitmap) : Option Nat :=
  b.next_ge 0

/-- Embedded from `Bitmap::next_set` / `Bitmap::next` (mod.rs): probe for
the first set index strictly after the previously produced one; a `none`
previous index is encoded as hwloc's `-1`, i.e. the probe restarts from the
first set index. -/
def next_set (b : Bitmap) (prev : Option Nat) : Option Nat :=
  match prev with
  | none => b.next_ge 0
  | some p => b.next_ge (p + 1)

/-- Modelled from the spec: `Bitmap::singlify` (`hwloc_bitmap_singlify`)
retains only the lowest set index; the spec leaves the empty case
unspecified, here it is a no-op. -/
def singlify (b : Bitmap) : Bitmap :=
  match b.first_set with
  | none => b
  | some i => ⟨List.replicate i false ++ [true], false⟩

/-- Embedded from the `FromIterator`/`Extend` impls (mod.rs): start from an
empty bitmap and `set` every index of the collection in order. -/
def fromIndices (S : List Nat) : Bitmap :=
  S.foldl Bitmap.set Bitmap.new

end Bitmap

/-- Embedded from `std::ops::Bound` as used by `Bitmap::hwloc_range`: one
end of a user-supplied range. -/
inductive RBound where
  | unbounded : RBound
  | included : Nat → RBound
  | excluded : Nat → RBound
deriving DecidableEq

/-- Modelled from the spec: `BitmapIndex::checked_succ` (module
`bitmaps/indices`, not in the sources): checked successor, `none` at the
domain maximum. -/
def checked_succ (i : Nat) : Option Nat :=
  if i < BMAX then some (i + 1) else none

/-- Modelled from the spec: `BitmapIndex::checked_pred` (module
`bitmaps/indices`, not in the sources): checked predecessor, `none` at 0. -/
def checked_pred (i : Nat) : Option Nat :=
  if 0 < i then some (i - 1) else none

/-- In-domain side condition for a range bound (corresponds to the
`TryInto<BitmapIndex>` conversions succeeding in `hwloc_range`). -/
def boundOk : RBound → Prop
  | RBound.unbounded => True
  | RBound.included i => i ≤ BMAX
  | RBound.excluded i => i ≤ BMAX

namespace Bitmap

/-- Embedded from `Bitmap::hwloc_range` (mod.rs, lines 824-855): translate a
Rust range into hwloc's inclusive `(begin, end)` pair with `-1` meaning
unbounded; if shifting an excluded bound overflows the domain, fall back to
the canonically empty range `(1, 0)`. -/
def hwloc_range (sb eb : RBound) : Nat × Int :=
  let start? : Option Nat :=
    match sb with
    | RBound.unbounded => some 0
    | RBound.included i => some i
    | RBound.excluded i => checked_succ i
  let stop? : Option Int :=
    match eb with
    | RBound.unbounded => some (-1)
    | RBound.included i => some (Int.ofNat i)
    | RBound.excluded i => Option.map (fun j => Int.ofNat j) (checked_pred i)
  match start?, stop? with
  | some s, some e => (s, e)
  | _, _ => (1, 0)

/-- Whether index `j` lies in hwloc's inclusive range `[lo, hi]`, where
`hi = -1` means unbounded above. -/
def inRangeHw (lo : Nat) (hi : Int) (j : Nat) : Bool :=
  decide (lo ≤ j) && (hi == -1 || decide ((j : Int) ≤ hi))

/-- Modelled from the spec: `hwloc_bitmap_set_range`, setting every index in
the inclusive range `[lo, hi]` (`hi = -1` meaning to infinity). -/
def set_range_hw (b : Bitmap) (lo : Nat) (hi : Int) : Bitmap :=
  let n := max b.pfx.length (if hi == -1 then lo else hi.toNat + 1)
  ⟨(List.range n).map fun j => inRangeHw lo hi j || b.mem j,
   b.inf || hi == -1⟩

/-- Modelled from the spec: `hwloc_bitmap_clr_range`, clearing every index
in the inclusive range `[lo, hi]` (`hi = -1` meaning to infinity). -/
def unset_range_hw (b : Bitmap) (lo : Nat) (hi : Int) : Bitmap :=
  let n := max b.pfx.length (if hi == -1 then lo else hi.toNat + 1)
  ⟨(List.range n).map fun j => !inRangeHw lo hi j && b.mem j,
   b.inf && !(hi == -1)⟩

/-- Embedded from `Bitmap::set_range` (mod.rs, lines 418-433): a range
unbounded on both ends short-circuits to `fill`, anything else goes through
`hwloc_range` and `hwloc_bitmap_set_range`. -/
def set_range (b : Bitmap) (sb eb : RBound) : Bitmap :=
  match sb, eb with
  | RBound.unbounded, RBound.unbounded => b.fill
  | _, _ =>
    let p := hwloc_range sb eb
    b.set_range_hw p.1 p.2

/-- Embedded from `Bitmap::unset_range` (mod.rs, lines 484-499): a range
unbounded on both ends short-circuits to `clear`, anything else goes through
`hwloc_range` and `hwloc_bitmap_clr_range`. -/
def unset_range (b : Bitmap) (sb eb : RBound) : Bitmap :=
  match sb, eb with
  | RBound.unbounded, RBound.unbounded => b.clear
  | _, _ =>
    let p := hwloc_range sb eb
    b.unset_range_hw p.1 p.2

end Bitmap

/-- Embedded from `BitmapIterator` (mod.rs, lines 1082-1103): the bitmap
together with the last produced index (`prev`, initially `none`). -/
structure BitmapIterator where
  bitmap : Bitmap
  prev : Option Nat
deriving DecidableEq

/-- Embedded from `Iterator::next` for `BitmapIterator` (mod.rs, lines
1105-1112): store the probe result back into `prev` and return it. -/
def BitmapIterator.next (it : BitmapIterator) : Option Nat × BitmapIterator :=
  let r := it.bitmap.next_set it.prev
  (r, ⟨it.bitmap, r⟩)

namespace Bitmap

/-- Embedded from `Bitmap::iter_set` (mod.rs): a fresh iterator over set
indices with no index produced yet. -/
def iter_set (b : Bitmap) : BitmapIterator :=
  ⟨b, none⟩

/-- Decompose the bitmap into maximal runs of consecutive set indices at or
after `k`: a pair `(s, some e)` is the inclusive finite run `[s, e]`, a pair
`(s, none)` is the unbounded run starting at `s`. The fuel only needs to
cover the stored bit list. -/
def runsFrom (b : Bitmap) : Nat → Nat → List (Nat × Option Nat)
  | 0, _ => []
  | fuel + 1, k =>
    match b.next_ge k with
    | none => []
    | some s =>
      match b.next_unset_ge s with
      | none => [(s, none)]
      | some e => (s, some (e - 1)) :: runsFrom b fuel (e + 1)

/-- All maximal runs of set indices of the bitmap, in ascending order. -/
def runs (b : Bitmap) : List (Nat × Option Nat) :=
  runsFrom b (b.pfx.length + 2) 0

/-- Modelled from the spec: one token of the textual rendering grammar:
`N` for a lone index, `N-M` for an inclusive finite run, `N-` for an
unbounded run. -/
def token : Nat × Option Nat → String
  | (s, none) => Nat.repr s ++ "-"
  | (s, some e) => if s = e then Nat.repr s else Nat.repr s ++ "-" ++ Nat.repr e

/-- Modelled from the spec: the `Display` rendering
(`hwloc_bitmap_list_snprintf`): the comma-separated run tokens. -/
def display (b : Bitmap) : String :=
  String.intercalate "," ((runs b).map token)

/-- Whether index `j` belongs to the run `r`. -/
def inRun (r : Nat × Option Nat) (j : Nat) : Prop :=
  match r with
  | (s, none) => s ≤ j
  | (s, some e) => s ≤ j ∧ j ≤ e

/-- Two adjacent runs cannot be merged: the first is finite and at least one
index separates its end from the start of the next. -/
def gapped (r₁ r₂ : Nat × Option Nat) : Prop :=
  ∃ e₁, r₁.2 = some e₁ ∧ e₁ + 1 < r₂.1

/-- Canonical-form invariant of a run decomposition relative to start `k`:
it covers exactly the members at or after `k`, consecutive runs are
separated by a gap, runs are well-formed and start at or after `k`, and
every run is maximal (the indices flanking it are unset). -/
def GoodRuns (b : Bitmap) (k : Nat) (rs : List (Nat × Option Nat)) : Prop :=
  (∀ j, k ≤ j → (b.mem j = true ↔ ∃ r ∈ rs, inRun r j)) ∧
  List.Chain' gapped rs ∧
  (∀ r ∈ rs, k ≤ r.1 ∧ ∀ e, r.2 = some e → r.1 ≤ e) ∧
  (∀ r ∈ rs, (r.1 = 0 ∨ b.mem (r.1 - 1) = false) ∧
    ∀ e, r.2 = some e → b.mem (e + 1) = false)

end Bitmap

namespace Bitmap

-- === Helper lemmas about list access ===

theorem getD_append (l₁ l₂ : List Bool) (d : Bool) :
    ∀ i, (l₁ ++ l₂).getD i d = if i < l₁.length then l₁.getD i d else l₂.getD (i - l₁.length) d := by
  induction l₁ with
  | nil => intro i; simp
  | cons x xs ih =>
    intro i
    cases i with
    | zero => simp
    | succ j =>
      simp only [List.cons_append, List.getD_cons_succ, List.length_cons, ih j]
      by_cases h : j < xs.length
      · rw [if_pos h, if_pos (by omega)]
      · rw [if_neg h, if_neg (by omega)]
        congr 1
        omega

theorem getD_replicate (a d : Bool) :
    ∀ n i, (List.replicate n a).getD i d = if i < n then a else d := by
  intro n
  induction n with
  | zero => intro i; simp
  | succ m ih =>
    intro i
    cases i with
    | zero => simp [List.replicate_succ]
    | succ j =>
      rw [List.replicate_succ, List.getD_cons_succ, ih j]
      by_cases h : j < m
      · rw [if_pos h, if_pos (by omega)]
      · rw [if_neg h, if_neg (by omega)]

theorem getD_set (l : List Bool) (a d : Bool) :
    ∀ i j, (l.set i a).getD j d =
      if i = j ∧ i < l.length then a else l.getD j d := by
  induction l with
  | nil => intro i j; simp
  | cons x xs ih =>
    intro i j
    cases i with
    | zero =>
      cases j with
      | zero => simp
      | succ j' => simp
    | succ i' =>
      cases j with
      | zero => simp
      | succ j' =>
        simp only [List.set_cons_succ, List.getD_cons_succ, ih i' j', List.length_cons]
        by_cases h : i' = j' ∧ i' < xs.length
        · rw [if_pos h, if_pos ⟨by omega, by omega⟩]
        · rw [if_neg h, if_neg (by omega)]

theorem getD_map_range (g : Nat → Bool) (d : Bool) :
    ∀ n i, ((List.range n).map g).getD i d = if i < n then g i else d := by
  intro n i
  rcases Nat.lt_or_ge i n with h | h
  · rw [if_pos h]
    rw [List.getD_eq_getElem?_getD, List.getElem?_map, List.getElem?_range h]
    rfl
  · rw [if_neg (by omega)]
    apply List.getD_eq_default
    simpa using h

-- === Membership characterizations ===

theorem mem_of_ge_length (b : Bitmap) (i : Nat) (h : b.pfx.length ≤ i) :
    b.mem i = b.inf :=
  List.getD_eq_default _ _ h

theorem length_pad (b : Bitmap) (n : Nat) :
    (b.pad n).length = max b.pfx.length n := by
  simp [pad]
  omega

theorem getD_pad (b : Bitmap) (n j : Nat) :
    (b.pad n).getD j b.inf = b.mem j := by
  rw [pad, getD_append, getD_replicate]
  by_cases h : j < b.pfx.length
  · rw [if_pos h]; rfl
  · rw [if_neg h]
    split
    · exact (mem_of_ge_length b j (by omega)).symm
    · exact (mem_of_ge_length b j (by omega)).symm

theorem mem_set (b : Bitmap) (i j : Nat) :
    (b.set i).mem j = if j = i then true else b.mem j := by
  show ((b.pad (i + 1)).set i true).getD j b.inf = _
  rw [getD_set, getD_pad]
  have hlen : i < (b.pad (i + 1)).length := by rw [length_pad]; omega
  by_cases h : j = i
  · rw [if_pos ⟨h.symm, hlen⟩, if_pos h]
  · rw [if_neg (by tauto), if_neg h]

theorem inf_set (b : Bitmap) (i : Nat) : (b.set i).inf = b.inf := rfl

theorem mem_lift2 (f : Bool → Bool → Bool) (a b : Bitmap) (i : Nat) :
    (lift2 f a b).mem i = f (a.mem i) (b.mem i) := by
  show ((List.range _).map _).getD i (f a.inf b.inf) = _
  rw [getD_map_range]
  split
  · rfl
  · rw [mem_of_ge_length a i (by omega), mem_of_ge_length b i (by omega)]

theorem equal_iff (a b : Bitmap) :
    equal a b = true ↔ ∀ i, a.mem i = b.mem i := by
  constructor
  · intro h i
    rw [equal, Bool.and_eq_true, beq_iff_eq, List.all_eq_true] at h
    obtain ⟨hinf, hall⟩ := h
    by_cases hi : i < max a.pfx.length b.pfx.length
    · have := hall i (List.mem_range.mpr hi)
      exact beq_iff_eq.mp (by simpa using this)
    · rw [mem_of_ge_length a i (by omega), mem_of_ge_length b i (by omega), hinf]
  · intro h
    rw [equal, Bool.and_eq_true, beq_iff_eq, List.all_eq_true]
    refine ⟨?_, ?_⟩
    · have := h (max a.pfx.length b.pfx.length)
      rwa [mem_of_ge_length a _ (by omega), mem_of_ge_length b _ (by omega)] at this
    · intro i _
      simp [h i]

-- === Counting lemmas ===

theorem count_true_set (l : List Bool) :
    ∀ i, i < l.length →
      (l.set i true).count true =
        if l.getD i false then l.count true else l.count true + 1 := by
  induction l with
  | nil => intro i h; simp at h
  | cons x xs ih =>
    intro i h
    cases i with
    | zero =>
      cases x <;> simp [List.count_cons]
    | succ j =>
      have hj : j < xs.length := by simpa using h
      rw [List.set_cons_succ, List.count_cons, List.count_cons, List.getD_cons_succ, ih j hj]
      split <;> omega

theorem count_pad_false (b : Bitmap) (n : Nat) (hinf : b.inf = false) :
    (b.pad n).count true = b.pfx.count true := by
  rw [pad, List.count_append, hinf, List.count_replicate]
  simp

theorem count_set (b : Bitmap) (i : Nat) (hinf : b.inf = false) :
    (b.set i).pfx.count true =
      if b.mem i then b.pfx.count true else b.pfx.count true + 1 := by
  show ((b.pad (i + 1)).set i true).count true = _
  rw [count_true_set _ i (by rw [length_pad]; omega)]
  have : (b.pad (i + 1)).getD i false = b.mem i := by
    conv_lhs => rw [← hinf]
    exact getD_pad b (i + 1) i
  rw [this, count_pad_false b _ hinf]

theorem weight_set (b : Bitmap) (i : Nat) (hinf : b.inf = false) :
    (b.set i).weight =
      some (if b.mem i then b.pfx.count true else b.pfx.count true + 1) := by
  rw [weight, inf_set, hinf, count_set b i hinf]
  rfl

-- === Probe spec lemmas ===

theorem next_ge_aux_spec (b : Bitmap) :
    ∀ fuel k, b.pfx.length ≤ k + fuel →
      (∀ s, next_ge_aux b fuel k = some s →
        k ≤ s ∧ s ≤ max k b.pfx.length ∧ b.mem s = true ∧
          ∀ j, k ≤ j → j < s → b.mem j = false) ∧
      (next_ge_aux b fuel k = none →
        b.inf = false ∧ ∀ j, k ≤ j → b.mem j = false) := by
  intro fuel
  induction fuel with
  | zero =>
    intro k hk
    constructor
    · intro s hs
      rw [next_ge_aux] at hs
      split at hs
      · cases hs
        exact ⟨Nat.le_refl _, by omega,
          by rw [mem_of_ge_length b _ (by omega)]; assumption,
          fun j h1 h2 => by omega⟩
      · cases hs
    · intro hs
      rw [next_ge_aux] at hs
      split at hs
      · cases hs
      · rename_i hinf
        refine ⟨by simpa using hinf, fun j hj => ?_⟩
        rw [mem_of_ge_length b _ (by omega)]
        simpa using hinf
  | succ fuel ih =>
    intro k hk
    constructor
    · intro s hs
      rw [next_ge_aux] at hs
      split at hs
      · rename_i hklt
        split at hs
        · rename_i hmem
          cases hs
          exact ⟨Nat.le_refl _, by omega, hmem, fun j h1 h2 => by omega⟩
        · rename_i hmem
          have := (ih (k + 1) (by omega)).1 s hs
          refine ⟨by omega, by omega, this.2.2.1, fun j h1 h2 => ?_⟩
          rcases Nat.eq_or_lt_of_le h1 with rfl | h1'
          · simpa using hmem
          · exact this.2.2.2 j (by omega) h2
      · split at hs
        · cases hs
          exact ⟨Nat.le_refl _, by omega,
            by rw [mem_of_ge_length b _ (by omega)]; assumption,
            fun j h1 h2 => by omega⟩
        · cases hs
    · intro hs
      rw [next_ge_aux] at hs
      split at hs
      · rename_i hklt
        split at hs
        · cases hs
        · rename_i hmem
          have := (ih (k + 1) (by omega)).2 hs
          refine ⟨this.1, fun j hj => ?_⟩
          rcases Nat.eq_or_lt_of_le hj with rfl | hj'
          · simpa using hmem
          · exact this.2 j (by omega)
      · split at hs
        · cases hs
        · rename_i hinf
          refine ⟨by simpa using hinf, fun j hj => ?_⟩
          rw [mem_of_ge_length b _ (by omega)]
          simpa using hinf

theorem next_ge_some (b : Bitmap) (k s : Nat) (h : b.next_ge k = some s) :
    k ≤ s ∧ s ≤ max k b.pfx.length ∧ b.mem s = true ∧
      ∀ j, k ≤ j → j < s → b.mem j = false :=
  (next_ge_aux_spec b b.pfx.length k (by omega)).1 s h

theorem next_ge_none (b : Bitmap) (k : Nat) (h : b.next_ge k = none) :
    b.inf = false ∧ ∀ j, k ≤ j → b.mem j = false :=
  (next_ge_aux_spec b b.pfx.length k (by omega)).2 h

theorem next_unset_ge_aux_spec (b : Bitmap) :
    ∀ fuel k, b.pfx.length ≤ k + fuel →
      (∀ e, next_unset_ge_aux b fuel k = some e →
        k ≤ e ∧ e ≤ max k b.pfx.length ∧ b.mem e = false ∧
          ∀ j, k ≤ j → j < e → b.mem j = true) ∧
      (next_unset_ge_aux b fuel k = none →
        b.inf = true ∧ ∀ j, k ≤ j → b.mem j = true) := by
  intro fuel
  induction fuel with
  | zero =>
    intro k hk
    constructor
    · intro e he
      rw [next_unset_ge_aux] at he
      split at he
      · cases he
      · rename_i hinf
        cases he
        exact ⟨Nat.le_refl _, by omega,
          by rw [mem_of_ge_length b _ (by omega)]; simpa using hinf,
          fun j h1 h2 => by omega⟩
    · intro he
      rw [next_unset_ge_aux] at he
      split at he
      · rename_i hinf
        refine ⟨hinf, fun j hj => ?_⟩
        rw [mem_of_ge_length b _ (by omega)]
        assumption
      · cases he
  | succ fuel ih =>
    intro k hk
    constructor
    · intro e he
      rw [next_unset_ge_aux] at he
      split at he
      · rename_i hklt
        split at he
        · rename_i hmem
          have := (ih (k + 1) (by omega)).1 e he
          refine ⟨by omega, by omega, this.2.2.1, fun j h1 h2 => ?_⟩
          rcases Nat.eq_or_lt_of_le h1 with rfl | h1'
          · exact hmem
          · exact this.2.2.2 j (by omega) h2
        · rename_i hmem
          cases he
          exact ⟨Nat.le_refl _, by omega, by simpa using hmem,
            fun j h1 h2 => by omega⟩
      · split at he
        · cases he
        · rename_i hinf
          cases he
          exact ⟨Nat.le_refl _, by omega,
            by rw [mem_of_ge_length b _ (by omega)]; simpa using hinf,
            fun j h1 h2 => by omega⟩
    · intro he
      rw [next_unset_ge_aux] at he
      split at he
      · rename_i hklt
        split at he
        · rename_i hmem
          have := (ih (k + 1) (by omega)).2 he
          refine ⟨this.1, fun j hj => ?_⟩
          rcases Nat.eq_or_lt_of_le hj with rfl | hj'
          · exact hmem
          · exact this.2 j (by omega)
        · cases he
      · split at he
        · rename_i hinf
          refine ⟨hinf, fun j hj => ?_⟩
          rw [mem_of_ge_length b _ (by omega)]
          assumption
        · cases he

theorem next_unset_ge_some (b : Bitmap) (k e : Nat) (h : b.next_unset_ge k = some e) :
    k ≤ e ∧ e ≤ max k b.pfx.length ∧ b.mem e = false ∧
      ∀ j, k ≤ j → j < e → b.mem j = true :=
  (next_unset_ge_aux_spec b b.pfx.length k (by omega)).1 e h

theorem next_unset_ge_none (b : Bitmap) (k : Nat) (h : b.next_unset_ge k = none) :
    b.inf = true ∧ ∀ j, k ≤ j → b.mem j = true :=
  (next_unset_ge_aux_spec b b.pfx.length k (by omega)).2 h

-- === Building from a collection of indices ===

theorem inf_foldl_set (S : List Nat) :
    ∀ b : Bitmap, (S.foldl Bitmap.set b).inf = b.inf := by
  induction S with
  | nil => intro b; rfl
  | cons i S ih => intro b; rw [List.foldl_cons, ih, inf_set]

theorem mem_foldl_set (S : List Nat) :
    ∀ (b : Bitmap) (j : Nat),
      (S.foldl Bitmap.set b).mem j = true ↔ (j ∈ S ∨ b.mem j = true) := by
  induction S with
  | nil => intro b j; simp
  | cons i S ih =>
    intro b j
    rw [List.foldl_cons, ih, mem_set]
    by_cases h : j = i
    · subst h; simp
    · rw [if_neg h]
      simp only [List.mem_cons]
      tauto

theorem count_foldl_set (S : List Nat) :
    ∀ b : Bitmap, b.inf = false → S.Nodup → (∀ i ∈ S, b.mem i = false) →
      (S.foldl Bitmap.set b).pfx.count true = b.pfx.count true + S.length := by
  induction S with
  | nil => intro b _ _ _; simp
  | cons i S ih =>
    intro b hinf hnd hfresh
    rw [List.foldl_cons]
    have hmi : b.mem i = false := hfresh i (List.mem_cons_self i S)
    have hrec := ih (b.set i) (by rw [inf_set]; exact hinf)
      (List.Nodup.of_cons hnd)
      (by
        intro i' hi'
        rw [mem_set]
        have hne : i' ≠ i := by
          rintro rfl
          exact (List.nodup_cons.mp hnd).1 hi'
        rw [if_neg hne]
        exact hfresh i' (List.mem_cons_of_mem i hi'))
    rw [hrec, count_set b i hinf, hmi]
    simp only [Bool.false_eq_true, if_false, List.length_cons]
    omega

theorem weight_fromIndices (S : List Nat) (hnd : S.Nodup) :
    (fromIndices S).weight = some S.length := by
  rw [fromIndices, weight, inf_foldl_set]
  rw [count_foldl_set S Bitmap.new rfl hnd (by intro i _; rfl)]
  simp [Bitmap.new]

theorem mem_fromIndices (S : List Nat) (j : Nat) :
    (fromIndices S).mem j = true ↔ j ∈ S := by
  rw [fromIndices, mem_foldl_set]
  have : Bitmap.new.mem j = false := rfl
  simp [this]

-- === Emptiness and singlify ===

theorem exists_mem_of_not_empty (b : Bitmap) (h : b.is_empty = false) :
    ∃ j, b.mem j = true := by
  rw [is_empty, Bool.and_eq_false_iff] at h
  rcases h with h | h
  · rw [List.all_eq_false] at h
    obtain ⟨x, hx, hnx⟩ := h
    obtain ⟨n, hn, hget⟩ := List.mem_iff_getElem.mp hx
    refine ⟨n, ?_⟩
    have : b.mem n = b.pfx[n] := by
      rw [mem, List.getD_eq_getElem?_getD, List.getElem?_eq_getElem hn]
      rfl
    rw [this, hget]
    revert hnx
    cases x <;> simp
  · refine ⟨b.pfx.length, ?_⟩
    rw [mem_of_ge_length b _ (Nat.le_refl _)]
    revert h
    cases b.inf <;> simp

theorem first_set_isSome_of_not_empty (b : Bitmap) (h : b.is_empty = false) :
    ∃ i, b.first_set = some i := by
  cases hfs : b.first_set with
  | some i => exact ⟨i, rfl⟩
  | none =>
    obtain ⟨j, hj⟩ := exists_mem_of_not_empty b h
    have := (next_ge_none b 0 hfs).2 j (Nat.zero_le j)
    rw [hj] at this
    cases this

theorem mem_singlify (b : Bitmap) (i : Nat) (hfs : b.first_set = some i) :
    ∀ j, (b.singlify).mem j = if j = i then true else false := by
  intro j
  rw [singlify, hfs]
  show (List.replicate i false ++ [true]).getD j false = _
  rw [getD_append, getD_replicate, List.length_replicate]
  by_cases h : j = i
  · subst h
    rw [if_neg (by omega), if_pos rfl]
    simp
  · by_cases hlt : j < i
    · rw [if_pos hlt, if_pos hlt, if_neg h]
    · rw [if_neg hlt, if_neg h]
      have : j - i ≥ 1 := by omega
      cases hji : j - i with
      | zero => omega
      | succ m => simp

theorem weight_singlify (b : Bitmap) (i : Nat) (hfs : b.first_set = some i) :
    (b.singlify).weight = some 1 := by
  rw [singlify, hfs, weight]
  simp [List.count_append, List.count_replicate]

-- === Range translation lemmas ===

theorem hwloc_range_overflow (sb eb : RBound)
    (h : sb = RBound.excluded BMAX ∨ eb = RBound.excluded 0) :
    hwloc_range sb eb = (1, 0) := by
  rcases h with rfl | rfl
  · have hs : checked_succ BMAX = none := by rw [checked_succ, if_neg (by omega)]
    rcases eb with _ | i | i <;> simp [hwloc_range, hs]
  · have hp : checked_pred 0 = none := by rw [checked_pred, if_neg (by omega)]
    rcases sb with _ | i | i <;> simp [hwloc_range, hp]

theorem mem_set_range_hw (b : Bitmap) (lo : Nat) (hi : Int) (j : Nat) :
    (b.set_range_hw lo hi).mem j = (inRangeHw lo hi j || b.mem j) := by
  rw [set_range_hw, mem]
  simp only
  rw [getD_map_range]
  by_cases hj : j < max b.pfx.length (if hi == -1 then lo else hi.toNat + 1)
  · rw [if_pos hj]
  · rw [if_neg hj]
    have hlen : b.pfx.length ≤ j :=
      le_trans (Nat.le_max_left _ _) (Nat.le_of_not_lt hj)
    rw [mem_of_ge_length b j hlen]
    by_cases hone : hi = -1
    · subst hone
      have h1 : ((-1 : Int) == -1) = true := by decide
      rw [h1, if_pos rfl] at hj
      have hin : inRangeHw lo (-1) j = true := by
        rw [inRangeHw, h1]
        have : lo ≤ j := by omega
        simp [this]
      rw [hin]
      simp
    · have h0 : (hi == -1) = false := by simpa using hone
      rw [h0] at hj
      simp only [Bool.false_eq_true, if_false] at hj
      have hin : inRangeHw lo hi j = false := by
        rw [inRangeHw, h0]
        have : ¬ ((j : Int) ≤ hi) := by omega
        simp [this]
      rw [hin, h0]
      simp

theorem mem_unset_range_hw (b : Bitmap) (lo : Nat) (hi : Int) (j : Nat) :
    (b.unset_range_hw lo hi).mem j = (!inRangeHw lo hi j && b.mem j) := by
  rw [unset_range_hw, mem]
  simp only
  rw [getD_map_range]
  by_cases hj : j < max b.pfx.length (if hi == -1 then lo else hi.toNat + 1)
  · rw [if_pos hj]
  · rw [if_neg hj]
    have hlen : b.pfx.length ≤ j :=
      le_trans (Nat.le_max_left _ _) (Nat.le_of_not_lt hj)
    rw [mem_of_ge_length b j hlen]
    by_cases hone : hi = -1
    · subst hone
      have h1 : ((-1 : Int) == -1) = true := by decide
      rw [h1, if_pos rfl] at hj
      have hin : inRangeHw lo (-1) j = true := by
        rw [inRangeHw, h1]
        have : lo ≤ j := by omega
        simp [this]
      rw [hin]
      simp
    · have h0 : (hi == -1) = false := by simpa using hone
      rw [h0] at hj
      simp only [Bool.false_eq_true, if_false] at hj
      have hin : inRangeHw lo hi j = false := by
        rw [inRangeHw, h0]
        have : ¬ ((j : Int) ≤ hi) := by omega
        simp [this]
      rw [hin, h0]
      simp

theorem inRangeHw_one_zero (j : Nat) : inRangeHw 1 0 j = false := by
  rw [inRangeHw]
  have h0 : ((0 : Int) == -1) = false := by decide
  rw [h0]
  by_cases h : 1 ≤ j
  · have : ¬ ((j : Int) ≤ 0) := by omega
    simp [this]
  · simp [h]

-- === Run decomposition ===

theorem runsFrom_good (b : Bitmap) :
    ∀ fuel k, max 1 (b.pfx.length + 2 - k) ≤ fuel →
      (k = 0 ∨ b.mem (k - 1) = false) →
      GoodRuns b k (runsFrom b fuel k) := by
  intro fuel
  induction fuel with
  | zero =>
    intro k hfuel hk
    exact absurd hfuel (by omega)
  | succ fuel ih =>
    intro k hfuel hk
    cases hng : b.next_ge k with
    | none =>
      have hnone := next_ge_none b k hng
      simp only [runsFrom, hng]
      refine ⟨?_, ?_, ?_, ?_⟩
      · intro j hj
        constructor
        · intro hmem
          rw [hnone.2 j hj] at hmem
          cases hmem
        · rintro ⟨r, hr, _⟩
          simp at hr
      · simp
      · intro r hr
        simp at hr
      · intro r hr
        simp at hr
    | some s =>
      obtain ⟨hks, hsmax, hmems, hbelow⟩ := next_ge_some b k s hng
      cases hnu : b.next_unset_ge s with
      | none =>
        obtain ⟨hbinf, hall⟩ := next_unset_ge_none b s hnu
        simp only [runsFrom, hng, hnu]
        refine ⟨?_, ?_, ?_, ?_⟩
        · intro j hj
          constructor
          · intro hmem
            refine ⟨(s, none), List.mem_singleton_self _, ?_⟩
            show s ≤ j
            by_contra hc
            rw [hbelow j hj (by omega)] at hmem
            cases hmem
          · rintro ⟨r, hr, hrun⟩
            rw [List.mem_singleton] at hr
            subst hr
            exact hall j hrun
        · simp
        · intro r hr
          rw [List.mem_singleton] at hr
          subst hr
          exact ⟨hks, fun e he => by cases he⟩
        · intro r hr
          rw [List.mem_singleton] at hr
          subst hr
          refine ⟨?_, fun e he => by cases he⟩
          by_cases hs0 : s = 0
          · exact Or.inl hs0
          · right
            rcases Nat.lt_or_ge k s with hlt | hge
            · exact hbelow (s - 1) (by omega) (by omega)
            · rcases hk with hk0 | hkf
              · exact absurd (by omega) hs0
              · have heq : s - 1 = k - 1 := by omega
                rw [heq]
                exact hkf
      | some e =>
        obtain ⟨hse, hemax, hmeme, hrun⟩ := next_unset_ge_some b s e hnu
        have hne : s < e := by
          rcases Nat.eq_or_lt_of_le hse with rfl | h
          · rw [hmems] at hmeme
            cases hmeme
          · exact h
        have helen : e ≤ b.pfx.length := by
          by_cases hbinf : b.inf = true
          · by_contra hc
            rw [mem_of_ge_length b e (by omega), hbinf] at hmeme
            cases hmeme
          · have hslen : s < b.pfx.length := by
              by_contra hc
              rw [mem_of_ge_length b s (by omega)] at hmems
              rw [hmems] at hbinf
              exact hbinf rfl
            omega
        have hrec := ih (e + 1) (by omega) (Or.inr (by simpa using hmeme))
        obtain ⟨hcov, hchain, hstarts, hmaxl⟩ := hrec
        simp only [runsFrom, hng, hnu]
        refine ⟨?_, ?_, ?_, ?_⟩
        · intro j hj
          constructor
          · intro hmem
            rcases Nat.lt_or_ge j (e + 1) with hje | hje
            · have hjs : s ≤ j := by
                by_contra hc
                rw [hbelow j hj (by omega)] at hmem
                cases hmem
              have hjne : j ≠ e := by
                rintro rfl
                rw [hmeme] at hmem
                cases hmem
              exact ⟨(s, some (e - 1)), List.mem_cons_self _ _, hjs, by omega⟩
            · obtain ⟨r, hr, hrr⟩ := (hcov j hje).mp hmem
              exact ⟨r, List.mem_cons_of_mem _ hr, hrr⟩
          · rintro ⟨r, hr, hrr⟩
            rcases List.mem_cons.mp hr with rfl | hr'
            · exact hrun j hrr.1 (by have := hrr.2; omega)
            · have hj1 : e + 1 ≤ r.1 := (hstarts r hr').1
              have hjr : r.1 ≤ j := by
                rcases r with ⟨s', _ | e'⟩
                · exact hrr
                · exact hrr.1
              exact (hcov j (by omega)).mpr ⟨r, hr', hrr⟩
        · refine List.chain'_cons'.mpr ⟨?_, hchain⟩
          intro r2 hr2
          have hr2mem : r2 ∈ runsFrom b fuel (e + 1) := List.mem_of_mem_head? hr2
          refine ⟨e - 1, rfl, ?_⟩
          have := (hstarts r2 hr2mem).1
          omega
        · intro r hr
          rcases List.mem_cons.mp hr with rfl | hr'
          · refine ⟨hks, ?_⟩
            intro e' he'
            cases he'
            show s ≤ e - 1
            omega
          · have := hstarts r hr'
            exact ⟨by have := this.1; omega, this.2⟩
        · intro r hr
          rcases List.mem_cons.mp hr with rfl | hr'
          · constructor
            · by_cases hs0 : s = 0
              · exact Or.inl hs0
              · right
                rcases Nat.lt_or_ge k s with hlt | hge
                · exact hbelow (s - 1) (by omega) (by omega)
                · rcases hk with hk0 | hkf
                  · exact absurd (by omega) hs0
                  · have heq : s - 1 = k - 1 := by omega
                    rw [heq]
                    exact hkf
            · intro e' he'
              cases he'
              have heq : e - 1 + 1 = e := by omega
              rw [heq]
              exact hmeme
          · exact hmaxl r hr'

theorem runs_good (b : Bitmap) : GoodRuns b 0 (runs b) :=
  runsFrom_good b (b.pfx.length + 2) 0 (by omega) (Or.inl rfl)

-- === Fill and clear ===

theorem mem_fill (b : Bitmap) (i : Nat) : (b.fill).mem i = true := by
  show (List.replicate b.pfx.length true).getD i true = true
  rw [getD_replicate]
  split <;> rfl

theorem is_full_fill (b : Bitmap) : (b.fill).is_full = true := by
  show ((List.replicate b.pfx.length true).all fun x => x) && true = true
  simp [List.all_eq_true, List.mem_replicate]

theorem is_empty_clear (b : Bitmap) : (b.clear).is_empty = true := by
  show ((List.replicate b.pfx.length false).all fun x => !x) && !false = true
  simp [List.all_eq_true, List.mem_replicate]

theorem weight_clear (b : Bitmap) : (b.clear).weight = some 0 := by
  simp [clear, weight, List.count_replicate]

-- === Claim theorems ===

/-- C1: the claim says a `BitmapIterator` that has returned "exhausted"
keeps returning it forever (fused behavior, also promised by the code's own
`FusedIterator` impl). The code violates this: `next` stores the probe
result into `prev`, so after exhaustion `prev` is `none` again and the
following call restarts from the first set index. On the bitmap containing
only index 0, the three successive `next` calls return `some 0`, `none`,
and then `some 0` again instead of `none`. -/
theorem bitmapIterator_restarts_after_exhaustion :
    ((Bitmap.mk [true] false).iter_set).next.1 = some 0 ∧
    ((Bitmap.mk [true] false).iter_set).next.2.next.1 = none ∧
    ((Bitmap.mk [true] false).iter_set).next.2.next.2.next.1 = some 0 := by
  decide

/-- C2: for a range whose excluded bound cannot be shifted inward within the
index domain (exclusive start at the domain maximum, or exclusive end at 0),
`set_range` and `unset_range` treat the range as canonically empty: the
bitmap's contents are unchanged. -/
theorem range_overflow_preserves (b : Bitmap) (sb eb : RBound)
    (hov : sb = RBound.excluded BMAX ∨ eb = RBound.excluded 0)
    (hsb : boundOk sb) (heb : boundOk eb) :
    (∀ j, (b.set_range sb eb).mem j = b.mem j) ∧
    (∀ j, (b.unset_range sb eb).mem j = b.mem j) := by
  have hrange := hwloc_range_overflow sb eb hov
  have hnotboth : ¬(sb = RBound.unbounded ∧ eb = RBound.unbounded) := by
    rcases hov with rfl | rfl <;> simp
  have hs : ∀ j, (b.set_range_hw 1 0).mem j = b.mem j := by
    intro j
    rw [mem_set_range_hw, inRangeHw_one_zero]
    simp
  have hu : ∀ j, (b.unset_range_hw 1 0).mem j = b.mem j := by
    intro j
    rw [mem_unset_range_hw, inRangeHw_one_zero]
    simp
  have hseq : b.set_range sb eb =
      b.set_range_hw (hwloc_range sb eb).1 (hwloc_range sb eb).2 := by
    rcases sb with _ | i | i <;> rcases eb with _ | i' | i' <;>
      first
        | rfl
        | exact absurd ⟨rfl, rfl⟩ hnotboth
  have hueq : b.unset_range sb eb =
      b.unset_range_hw (hwloc_range sb eb).1 (hwloc_range sb eb).2 := by
    rcases sb with _ | i | i <;> rcases eb with _ | i' | i' <;>
      first
        | rfl
        | exact absurd ⟨rfl, rfl⟩ hnotboth
  constructor
  · intro j
    rw [hseq, hrange]
    exact hs j
  · intro j
    rw [hueq, hrange]
    exact hu j

/-- Witness for C2: a concrete bitmap and the two overflowing ranges, with
each hypothesis discharged at a concrete input. -/
theorem range_overflow_preserves_witness :
    ((Bitmap.mk [true] false).set_range (RBound.excluded BMAX) RBound.unbounded).mem 0 =
      (Bitmap.mk [true] false).mem 0 ∧
    ((Bitmap.mk [true] false).unset_range RBound.unbounded (RBound.excluded 0)).mem 5 =
      (Bitmap.mk [true] false).mem 5 :=
  ⟨(range_overflow_preserves (Bitmap.mk [true] false) (RBound.excluded BMAX) RBound.unbounded
      (Or.inl rfl) (Nat.le_refl BMAX) True.intro).1 0,
   (range_overflow_preserves (Bitmap.mk [true] false) RBound.unbounded (RBound.excluded 0)
      (Or.inr rfl) True.intro (Nat.zero_le BMAX)).2 5⟩

/-- C3: `weight` returns `none` ("unbounded") exactly when the set of member
indices is infinite, i.e. when the representation carries the infinite
tail and no largest unset index bounds the membership. -/
theorem weight_none_iff_infinite (b : Bitmap) :
    b.weight = none ↔ {i : Nat | b.mem i = true}.Infinite := by
  constructor
  · intro h
    have hinf : b.inf = true := by
      cases hb : b.inf
      · rw [weight, hb] at h
        simp at h
      · rfl
    have hsub : Set.Ici b.pfx.length ⊆ {i : Nat | b.mem i = true} := by
      intro i hi
      simp only [Set.mem_setOf_eq]
      rw [mem_of_ge_length b i hi]
      exact hinf
    exact Set.Infinite.mono hsub (Set.Ici_infinite _)
  · intro h
    cases hb : b.inf
    · exfalso
      have hsub : {i : Nat | b.mem i = true} ⊆ Set.Iio b.pfx.length := by
        intro i hi
        simp only [Set.mem_setOf_eq] at hi
        simp only [Set.mem_Iio]
        by_contra hc
        rw [mem_of_ge_length b i (by omega), hb] at hi
        cases hi
      exact h (Set.Finite.subset (Set.finite_Iio _) hsub)
    · rw [weight, hb]
      rfl

/-- C4: for all bitmaps, finite or infinite, `(a | b) - (a & b)` equals
`a ^ b` as sets (the code's equality, `hwloc_bitmap_isequal`). -/
theorem union_minus_inter_eq_xor (a b : Bitmap) :
    Bitmap.equal (Bitmap.sub (Bitmap.or a b) (Bitmap.and a b)) (Bitmap.xor a b) = true := by
  rw [equal_iff]
  intro i
  rw [sub, or, and, xor, mem_lift2, mem_lift2, mem_lift2, mem_lift2]
  cases a.mem i <;> cases b.mem i <;> rfl

/-- C5: a bitmap built from a finite collection of in-domain indices has
weight equal to the collection's cardinality, and an index is set in it
exactly when it belongs to the collection. -/
theorem fromIndices_spec (S : List Nat) (hdom : ∀ i ∈ S, i ≤ BMAX) (hnd : S.Nodup) :
    (fromIndices S).weight = some S.length ∧
    ∀ i, (fromIndices S).is_set i = true ↔ i ∈ S := by
  refine ⟨weight_fromIndices S hnd, ?_⟩
  intro i
  rw [is_set]
  exact mem_fromIndices S i

/-- Witness for C5: the collection `[3, 1, 2]` gives weight 3 and contains
index 2. -/
theorem fromIndices_spec_witness :
    (fromIndices [3, 1, 2]).weight = some 3 ∧ (fromIndices [3, 1, 2]).is_set 2 = true :=
  ⟨(fromIndices_spec [3, 1, 2] (by decide) (by decide)).1,
   ((fromIndices_spec [3, 1, 2] (by decide) (by decide)).2 2).mpr (by decide)⟩

/-- C6: `singlify` on a non-empty bitmap leaves weight 1, and the surviving
index is the lowest set index of the original bitmap (in particular a
member of it). -/
theorem singlify_nonempty (b : Bitmap) (h : b.is_empty = false) :
    (b.singlify).weight = some 1 ∧
    ∀ i, b.first_set = some i →
      (b.singlify).mem i = true ∧ b.mem i = true ∧ ∀ j, b.mem j = true → i ≤ j := by
  obtain ⟨i0, hi0⟩ := first_set_isSome_of_not_empty b h
  refine ⟨weight_singlify b i0 hi0, ?_⟩
  intro i hi
  obtain ⟨-, -, hmem, hlow⟩ := next_ge_some b 0 i hi
  refine ⟨?_, hmem, ?_⟩
  · rw [mem_singlify b i hi i, if_pos rfl]
  · intro j hj
    by_contra hc
    rw [hlow j (Nat.zero_le j) (by omega)] at hj
    cases hj

/-- Witness for C6: a concrete non-empty bitmap whose lowest set index is 1. -/
theorem singlify_nonempty_witness :
    (Bitmap.mk [false, true, true] false).is_empty = false ∧
    ((Bitmap.mk [false, true, true] false).singlify).weight = some 1 :=
  ⟨by decide, (singlify_nonempty (Bitmap.mk [false, true, true] false) (by decide)).1⟩

/-- C7: the textual rendering is the comma-separated list of run tokens, the
runs form a canonical decomposition (covering exactly the members, strictly
ascending with an unset index between consecutive runs, each run maximal),
the empty bitmap renders as the empty string and the full bitmap as `0-`. -/
theorem display_canonical :
    Bitmap.display Bitmap.new = "" ∧
    Bitmap.display Bitmap.full = "0-" ∧
    ∀ b : Bitmap,
      b.display = String.intercalate "," ((Bitmap.runs b).map Bitmap.token) ∧
      Bitmap.GoodRuns b 0 (Bitmap.runs b) :=
  ⟨rfl, rfl, fun b => ⟨rfl, runs_good b⟩⟩

/-- C8: `set_range` on a range unbounded on both ends is exactly `fill`:
every index is set and `is_full` holds. -/
theorem set_range_unbounded_eq_fill (b : Bitmap) :
    b.set_range RBound.unbounded RBound.unbounded = b.fill ∧
    (∀ i, (b.set_range RBound.unbounded RBound.unbounded).mem i = true) ∧
    (b.set_range RBound.unbounded RBound.unbounded).is_full = true :=
  ⟨rfl, fun i => mem_fill b i, is_full_fill b⟩

/-- C9: `unset_range` on a range unbounded on both ends is exactly `clear`:
the bitmap is empty and the weight is zero. -/
theorem unset_range_unbounded_eq_clear (b : Bitmap) :
    b.unset_range RBound.unbounded RBound.unbounded = b.clear ∧
    (b.unset_range RBound.unbounded RBound.unbounded).is_empty = true ∧
    (b.unset_range RBound.unbounded RBound.unbounded).weight = some 0 :=
  ⟨rfl, is_empty_clear b, weight_clear b⟩

/-- C10: after `set i`, index `i` is set and the membership of every other
in-domain index is unchanged. -/
theorem set_frame (b : Bitmap) (i : Nat) (hi : i ≤ BMAX) :
    (b.set i).is_set i = true ∧
    ∀ j, j ≤ BMAX → j ≠ i → (b.set i).is_set j = b.is_set j := by
  refine ⟨?_, ?_⟩
  · rw [is_set, mem_set, if_pos rfl]
  · intro j _ hj
    rw [is_set, is_set, mem_set, if_neg hj]

/-- Witness for C10: setting index 2 of a concrete bitmap sets it and leaves
index 0 as it was. -/
theorem set_frame_witness :
    ((Bitmap.mk [true] false).set 2).is_set 2 = true ∧
    ((Bitmap.mk [true] false).set 2).is_set 0 = (Bitmap.mk [true] false).is_set 0 :=
  ⟨(set_frame (Bitmap.mk [true] false) 2 (by decide)).1,
   (set_frame (Bitmap.mk [true] false) 2 (by decide)).2 0 (by decide) (by decide)⟩

end Bitmap
